import Mathlib

/-!
Verification of the transport substrate of fb-adb (src/net.c, src/ringbuf.h):
the address-record constructors and renderer, the signal-tolerant socket
syscall wrappers, the socket-pair creation paths, the interruptible
resolver's blob wire protocol and its decoder, and the ring buffer.

Fatal conditions (`die`, `die_errno`) are modelled as `Except` errors carrying
the errno value and the message format string.  Machine integers are modelled
as `Nat` with explicit bounds (`size_t` arithmetic is checked against
`2 ^ 64`); byte buffers are `List Nat` with each cell one byte.
-/

set_option maxRecDepth 100000

/-- A fatal error raised by `die` / `die_errno`: errno value plus message. -/
structure DieErr where
  errno : Nat
  msg : String
deriving DecidableEq, Repr

/- Linux errno values used by the code under study. -/

def ENOENT : Nat := 2
def EINTR : Nat := 4
def EAGAIN : Nat := 11
/- On Linux EWOULDBLOCK is the same value as EAGAIN. -/
def EWOULDBLOCK : Nat := 11
def EINVAL : Nat := 22
def ENOSYS : Nat := 38
def ECOMM : Nat := 70

/-! ## Wait-status decoding (parent side of the resolver)

`xgetaddrinfo_interruptible` classifies the helper's wait status with the
POSIX macros.  We model the glibc definitions over the raw status word:
`WIFEXITED(s) = ((s & 0x7f) == 0)`, `WTERMSIG(s) = (s & 0x7f)`,
`WEXITSTATUS(s) = ((s >> 8) & 0xff)`, and `WIFSIGNALED(s)` is true exactly
when `s & 0x7f` is neither `0` nor `0x7f` (the signed-char trick in glibc's
`__WIFSIGNALED` excludes both). -/

def WIFEXITED (s : Nat) : Bool := s % 128 == 0

def WEXITSTATUS (s : Nat) : Nat := s / 256 % 256

def WTERMSIG (s : Nat) : Nat := s % 128

def WIFSIGNALED (s : Nat) : Bool := s % 128 != 0 && s % 128 != 127

/-- Modelled from the spec: `child_status_success_p` (child.c is not part of
the excerpt).  The helper "exits with status 0" on success (§4.4 step 2), so
a status is successful exactly when it reports a normal exit with code 0. -/
def child_status_success_p (s : Nat) : Bool :=
  WIFEXITED s && WEXITSTATUS s == 0

/-- The `if (!success)` branch of `xgetaddrinfo_interruptible` (net.c lines
437-452).  `cleaned` stands for the massaged standard-error capture
(`massage_output_buf(fdrecorder_get_clean(...))`), which is outside the
excerpt and enters the model as an opaque input.  Returns `none` when the
status is a success (no failure raised), otherwise the fatal error raised. -/
def resolver_fail (status : Nat) (cleaned : String) : Option DieErr :=
  if child_status_success_p status then none
  else if WIFEXITED status then some ⟨ENOENT, cleaned⟩
  else if WIFSIGNALED status then
    some ⟨ENOENT, "getaddrinfo failed with signal " ++ toString (WTERMSIG status)⟩
  else some ⟨ENOENT, "unknown status from resolver process"⟩

/-! ## Socket-pair creation and the cleanup guard

`util.c`'s cleanup machinery is not part of the excerpt; it is modelled from
the spec (§4.2 Resource-Commit Guard): a slot is allocated before the risky
call, `cleanup_commit_close_fd` arms it with a close-on-unwind action, and
when a fatal error unwinds the stack every armed closer runs.  The state
tracks which descriptors are open and which have an armed closer; `unwind`
is the effect of `die` propagating out of the function. -/

structure FdState where
  opened : List Nat
  armed : List Nat
deriving DecidableEq, Repr

/-- Modelled from the spec: error unwinding runs every armed cleanup, closing
the descriptors it guards (§4.2: "If no commit happens ... the guard invokes
the closer automatically"; committed close-fd cleanups run on unwind). -/
def unwind (st : FdState) : FdState :=
  ⟨st.opened.filter (fun f => !st.armed.contains f), []⟩

/-- `xsocketpair` (net.c lines 263-292): allocate two cleanup slots, call
`socketpair`, commit a close-fd cleanup for each descriptor, then perform the
close-on-exec setup of descriptor 0 and descriptor 1 in that order.  The
booleans inject failure into `socketpair` itself and into each descriptor's
setup (`merge_O_CLOEXEC_into_fd_flags` / `assert_cloexec`).  On a fatal error
the result carries the post-unwind descriptor state. -/
def xsocketpair_model (spOk su0 su1 : Bool) (f0 f1 : Nat) :
    Except FdState (FdState × Nat × Nat) :=
  if !spOk then .error (unwind ⟨[], []⟩)
  else
    let st : FdState := ⟨[f0, f1], [f0, f1]⟩
    if !su0 then .error (unwind st)
    else if !su1 then .error (unwind st)
    else .ok (st, f0, f1)

/-- `xsocketpairnc` (net.c lines 294-311): same sequence but with no cleanup
slots at all — no `cleanup_allocate`, no `cleanup_commit_close_fd`. -/
def xsocketpairnc_model (spOk su0 su1 : Bool) (f0 f1 : Nat) :
    Except FdState (FdState × Nat × Nat) :=
  if !spOk then .error (unwind ⟨[], []⟩)
  else
    let st : FdState := ⟨[f0, f1], []⟩
    if !su0 then .error (unwind st)
    else if !su1 then .error (unwind st)
    else .ok (st, f0, f1)

/-! ## Signal-interruption retry in the syscall wrappers

The underlying syscall is modelled by the finite trace of results it would
return on successive attempts: `.ok fd` for success, `.fail e` for failure
with errno `e`.  A wrapper that is still retrying when the trace runs out is
modelled as `none` (it would keep calling the OS). -/

inductive SysAttempt where
  | ok (fd : Nat)
  | fail (e : Nat)
deriving DecidableEq, Repr

/-- `xconnect` (net.c lines 110-122): retry `connect` while it fails with
`EINTR`; any other failure is `die_errno("connect")`. -/
def xconnect_model : List SysAttempt → Option (Except DieErr Unit)
  | [] => none
  | .ok _ :: _ => some (.ok ())
  | .fail e :: rest =>
    if e = EINTR then xconnect_model rest
    else some (.error ⟨e, "connect"⟩)

/-- `xaccept_internal` (net.c lines 211-243): retry `accept` while it fails
with `EINTR`; after the loop, if `allow_eagain` and the failure is
`EAGAIN`/`EWOULDBLOCK`, return the no-pending-connection sentinel (`-1`,
modelled as `.ok none`); any other failure is `die_errno("accept")`. -/
def xaccept_internal_model (allow_eagain : Bool) :
    List SysAttempt → Option (Except DieErr (Option Nat))
  | [] => none
  | .ok fd :: _ => some (.ok (some fd))
  | .fail e :: rest =>
    if e = EINTR then xaccept_internal_model allow_eagain rest
    else if allow_eagain && (e == EAGAIN || e == EWOULDBLOCK) then
      some (.ok none)
    else some (.error ⟨e, "accept"⟩)

/-- `xaccept` (net.c lines 245-249). -/
def xaccept_model (trace : List SysAttempt) : Option (Except DieErr (Option Nat)) :=
  xaccept_internal_model false trace

/-- `xaccept_nonblock` (net.c lines 251-261); the Linux path does not touch
the blocking mode of the returned descriptor. -/
def xaccept_nonblock_model (trace : List SysAttempt) :
    Option (Except DieErr (Option Nat)) :=
  xaccept_internal_model true trace

/-- `xbind` (net.c lines 131-136): a single `bind` call with no retry loop;
any failure — including `EINTR` — is `die_errno("bind")`. -/
def xbind_model : Option Nat → Except DieErr Unit
  | none => .ok ()
  | some e => .error ⟨e, "bind"⟩

/-- `xlisten` (net.c lines 124-129): same single-shot shape as `xbind`. -/
def xlisten_model : Option Nat → Except DieErr Unit
  | none => .ok ()
  | some e => .error ⟨e, "listen"⟩

/-! ## Address records

`net.h` is not part of the excerpt.  Its `struct addr` is recovered from the
way net.c uses it together with the spec's data model (§3 Address Record):
a `size` field (`size_t`, the true byte length of the OS sockaddr stored in
the union) followed by a union of sockaddr types.  net.c itself shows the
`size` field precedes the union (`memset(a, 0, offsetof(struct addr,
addr_un.sun_path))` zeroes the header including `size`, and
`make_addr_unix_abstract` computes `a->size = addrlen - offsetof(struct
addr, addr_un)`).  On the x86-64 Linux ABI this gives:

  * `offsetof(struct addr, addr_un)          = 8`  (after the `size_t`),
  * `offsetof(struct sockaddr_un, sun_path)  = 2`  (after `sa_family_t`),
  * `offsetof(struct addr, addr_un.sun_path) = 10`.

`payload` holds the bytes of the union region after the 2-byte family field
(for AF_UNIX this is `sun_path`).  `size` is the sockaddr length measured
from the start of the union, exactly as `xconnect`/`xbind` pass it to the
OS. -/

/-- `offsetof(struct addr, addr_un)` on x86-64 Linux. -/
def offsetof_addr_un : Nat := 8

/-- `offsetof(struct sockaddr_un, sun_path)` on x86-64 Linux. -/
def offsetof_sun_path : Nat := 2

/-- `offsetof(struct addr, addr_un.sun_path)` on x86-64 Linux. -/
def offsetof_addr_sun_path : Nat := 10

/-- `SIZE_MAX + 1` for 64-bit `size_t`. -/
def SIZE_W : Nat := 2 ^ 64

def INT_MAX : Nat := 2 ^ 31 - 1

/-- Address family tag of `struct addr` (`AF_UNIX = 1` on Linux). -/
def AF_UNIX : Nat := 1

structure Addr where
  size : Nat
  family : Nat
  payload : List Nat
deriving DecidableEq, Repr

/-- `SATADD(&r, a, b)` from util.h: saturating-checked `size_t` addition.
`none` models the overflow report (the macro returning true). -/
def SATADD (a b : Nat) : Option Nat :=
  if a + b < SIZE_W then some (a + b) else none

/-- `make_addr_unix_filesystem` (net.c lines 69-83).  `filename` is the byte
content of the NUL-terminated path argument (so it contains no 0 byte and
its length is `strlen(filename)`).  The C computes
`addrlen = offsetof(struct addr, addr_un.sun_path)` and then
`SATADD(&addrlen, addrlen, filename_length + 1)`, dying with
`EINVAL "socket name too long"` on overflow before `xalloc`; otherwise it
copies the path plus its NUL into `sun_path` and sets
`size = SUN_LEN = offsetof(struct sockaddr_un, sun_path) + strlen(path)`.
The `filename_length + 1` argument is itself `size_t` arithmetic, hence the
`% SIZE_W`. -/
def make_addr_unix_filesystem (filename : List Nat) : Except DieErr Addr :=
  match SATADD offsetof_addr_sun_path ((filename.length + 1) % SIZE_W) with
  | none => .error ⟨EINVAL, "socket name too long"⟩
  | some _ =>
    .ok { size := offsetof_sun_path + filename.length
          family := AF_UNIX
          payload := filename ++ [0] }

/-- `make_addr_unix_abstract` (net.c lines 85-102).  `linux` models the
`#ifdef __linux__`; `bytes` is the abstract name (`nr = bytes.length`).  The
Linux branch computes `addrlen = offsetof(struct addr, addr_un.sun_path) + 1`
then `SATADD(&addrlen, addrlen, nr)`, dying on overflow before `xalloc`;
otherwise `size = addrlen - offsetof(struct addr, addr_un)` and `sun_path`
is a leading NUL followed by the name bytes. -/
def make_addr_unix_abstract (linux : Bool) (bytes : List Nat) : Except DieErr Addr :=
  if linux then
    match SATADD (offsetof_addr_sun_path + 1) bytes.length with
    | none => .error ⟨EINVAL, "socket name too long"⟩
    | some addrlen =>
      .ok { size := addrlen - offsetof_addr_un
            family := AF_UNIX
            payload := 0 :: bytes }
  else .error ⟨ENOSYS, "this system does not support abstract AF_UNIX"⟩

/-- `addrinfo2addr` (net.c lines 167-178): `allocsz = offsetof(struct addr,
addr)` (= 8, the union offset) checked-added to `ai->ai_addrlen`, dying with
`EINVAL "address too long"` on overflow before `xalloc`; otherwise the OS
sockaddr bytes are copied and `size = ai_addrlen`.  `family`/`payload` stand
for the copied sockaddr split at its family field. -/
def addrinfo2addr (ai_addrlen : Nat) (fam : Nat) (sa : List Nat) :
    Except DieErr Addr :=
  match SATADD offsetof_addr_un ai_addrlen with
  | none => .error ⟨EINVAL, "address too long"⟩
  | some _ => .ok { size := ai_addrlen, family := fam, payload := sa }

/-- The bytes `printf("%.*s", (int) n, p)` renders: at most `n` bytes of `p`,
stopping at the first NUL. -/
def cstrTake (n : Nat) (l : List Nat) : List Nat :=
  (l.take n).takeWhile (fun b => b ≠ 0)

/-- The rendering produced by the AF_UNIX arm of `describe_addr`:
`[unixabstract:[<shown>]]` when `abstract`, else `[unixfilesystem:[<shown>]]`. -/
structure UnixRender where
  abstract : Bool
  shown : List Nat
deriving DecidableEq, Repr

/-- The `case AF_UNIX` arm of `describe_addr` (net.c lines 45-62):
`path_offset = offsetof(struct addr, addr_un.sun_path)` (= 10); dies with
`EINVAL "illegal AF_UNIX addr"` when `path_offset > a->size`; otherwise
`pathlen = a->size - path_offset` clamped to `INT_MAX`, and the path is
rendered with `%.*s`, skipping one leading byte (without shrinking
`pathlen`) when `sun_path[0]` is NUL. -/
def describe_addr_unix (a : Addr) : Except DieErr UnixRender :=
  if offsetof_addr_sun_path > a.size then
    .error ⟨EINVAL, "illegal AF_UNIX addr"⟩
  else
    let pathlen := min (a.size - offsetof_addr_sun_path) INT_MAX
    match a.payload with
    | 0 :: rest => .ok ⟨true, cstrTake pathlen rest⟩
    | p => .ok ⟨false, cstrTake pathlen p⟩

/-! ## Ring buffer

Only the interface `ringbuf.h` is part of the excerpt; the implementation is
modelled from the spec (§3 Ring Buffer, §4.5): fixed `capacity`, a read
cursor and current `size`, physical storage wrapping modulo the capacity;
`room = capacity - size`; `copy_in`/`copy_out` are fatal when the request
exceeds `room`/`size`. -/

/-- Modelled from the spec: the ring buffer state.  `data` is the backing
byte array (only indices below `cap` are meaningful), `start` the read
cursor, `size` the bytes currently held. -/
structure Ringbuf where
  cap : Nat
  start : Nat
  size : Nat
  data : Nat → Nat

def ringbuf_capacity (rb : Ringbuf) : Nat := rb.cap

def ringbuf_size (rb : Ringbuf) : Nat := rb.size

/-- Modelled from the spec: `room = capacity − size` (§3). -/
def ringbuf_room (rb : Ringbuf) : Nat := rb.cap - rb.size

/-- Store `buf` into the backing array at successive positions
`pos, pos+1, ...` taken modulo `cap`. -/
def writeBytes (d : Nat → Nat) (pos cap : Nat) : List Nat → Nat → Nat
  | [] => d
  | b :: rest =>
    writeBytes (fun j => if j = pos % cap then b else d j) (pos + 1) cap rest

/-- Read `n` bytes starting at position `pos` modulo `cap`. -/
def readBytes (d : Nat → Nat) (pos cap n : Nat) : List Nat :=
  (List.range n).map (fun i => d ((pos + i) % cap))

/-- Modelled from the spec: `ringbuf_copy_in` deposits `buf` at the write
cursor (`start + size`), fatal when the payload exceeds `room`. -/
def ringbuf_copy_in (rb : Ringbuf) (buf : List Nat) : Except DieErr Ringbuf :=
  if buf.length > ringbuf_room rb then .error ⟨EINVAL, "ringbuf overflow"⟩
  else .ok { rb with
             data := writeBytes rb.data (rb.start + rb.size) rb.cap buf
             size := rb.size + buf.length }

/-- Modelled from the spec: `ringbuf_copy_out` reads `n` bytes from the read
cursor without consuming them, fatal when `n` exceeds `size`. -/
def ringbuf_copy_out (rb : Ringbuf) (n : Nat) : Except DieErr (List Nat) :=
  if n > rb.size then .error ⟨EINVAL, "ringbuf underflow"⟩
  else .ok (readBytes rb.data rb.start rb.cap n)

/-- Modelled from the spec: `ringbuf_note_removed` commits the consumption of
`n` bytes, advancing the read cursor and shrinking `size` (callers pass
`n ≤ size`). -/
def ringbuf_note_removed (rb : Ringbuf) (n : Nat) : Ringbuf :=
  { rb with start := (rb.start + n) % rb.cap, size := rb.size - n }

/-- One step of an interleaved write/read workload: a write is `copy_in`, a
read is `copy_out` followed by `note_removed` of the same count. -/
inductive RbOp where
  | wr (buf : List Nat)
  | rd (n : Nat)

def rbStep (rb : Ringbuf) : RbOp → Except DieErr Ringbuf
  | .wr buf => ringbuf_copy_in rb buf
  | .rd n => do
    let _ ← ringbuf_copy_out rb n
    .ok (ringbuf_note_removed rb n)

def rbRun (rb : Ringbuf) : List RbOp → Except DieErr Ringbuf
  | [] => .ok rb
  | op :: rest => do rbRun (← rbStep rb op) rest

/-- The workload keeps its running total of held bytes within `[0, cap]`:
every write fits in the current room and every read consumes no more than is
held. -/
def rbAdmissible (cap : Nat) : Nat → List RbOp → Bool
  | _, [] => true
  | cur, .wr buf :: rest =>
    cur + buf.length ≤ cap && rbAdmissible cap (cur + buf.length) rest
  | cur, .rd n :: rest => n ≤ cur && rbAdmissible cap (cur - n) rest

/-! ## Resolver wire protocol

The helper (`xgai_preexec_1`, net.c lines 359-374) writes, per `addrinfo`
node: a blob holding the raw bytes of the `struct addrinfo` header, a blob
holding the raw sockaddr bytes, and — only when `ai_canonname` is non-null —
a blob holding the NUL-terminated canonical name.  A blob is an 8-byte
native-endian (little-endian on x86-64) `size_t` length followed by that
many bytes (`write_blob`, net.c lines 352-357).

The parent decodes with `decode_blob` (net.c lines 392-412) inside the
`while (data < data_end)` loop of `xgetaddrinfo_interruptible` (lines
462-479).  The `data`/`data_end` cursor pair is modelled by the remaining
suffix of the byte stream. -/

/-- Little-endian value of a byte list (memcpy into an integer). -/
def decodeLe : List Nat → Nat
  | [] => 0
  | b :: rest => b % 256 + 256 * decodeLe rest

/-- `k`-byte little-endian encoding of `n` (an in-memory integer field). -/
def encodeLe : Nat → Nat → List Nat
  | 0, _ => []
  | k + 1, n => n % 256 :: encodeLe k (n / 256)

def dieTruncated : DieErr := ⟨ECOMM, "truncated data"⟩

def dieProto : DieErr := ⟨ECOMM, "gai protocol error"⟩

/-- `write_blob` (net.c lines 352-357): 8-byte length prefix then payload. -/
def encodeBlob (b : List Nat) : List Nat :=
  encodeLe 8 b.length ++ b

/-- `decode_blob` (net.c lines 392-412) on the remaining bytes: dies with
`ECOMM "truncated data"` if fewer than 8 bytes remain, reads the length `sz`,
dies likewise if fewer than `sz` bytes follow, else yields the blob and the
bytes after it. -/
def decode_blob (rem : List Nat) : Except DieErr (List Nat × List Nat) :=
  if rem.length < 8 then .error dieTruncated
  else
    let sz := decodeLe (rem.take 8)
    let r := rem.drop 8
    if r.length < sz then .error dieTruncated
    else .ok (r.take sz, r.drop sz)

/-- `sizeof (struct addrinfo)` on x86-64 Linux glibc. -/
def AI_SIZE : Nat := 48

/-- `ai_addrlen` (a 4-byte `socklen_t` at offset 16) read from the raw bytes
of a `struct addrinfo` header blob. -/
def hdrAddrlen (h : List Nat) : Nat := decodeLe ((h.drop 16).take 4)

/-- `ai_canonname` (an 8-byte pointer at offset 32) read from the raw bytes
of a `struct addrinfo` header blob; the decoder only tests it against NULL. -/
def hdrCanon (h : List Nat) : Nat := decodeLe ((h.drop 32).take 8)

/-- One lookup result as the helper sees it: the scalar header fields, the
sockaddr bytes, and the canonical name bytes when present (already including
their terminating NUL, as the helper writes `strlen + 1` bytes). -/
structure GaiNode where
  flags : Nat
  family : Nat
  socktype : Nat
  protocol : Nat
  addr : List Nat
  canon : Option (List Nat)
deriving DecidableEq, Repr

/-- The raw bytes of one `struct addrinfo` on x86-64 Linux glibc:
`ai_flags`@0, `ai_family`@4, `ai_socktype`@8, `ai_protocol`@12,
`ai_addrlen`@16, 4 padding bytes, `ai_addr`@24, `ai_canonname`@32,
`ai_next`@40; 48 bytes total.  `ap`, `cp`, `nx` are the pointer words the
helper process happened to hold in `ai_addr`, `ai_canonname`, `ai_next`;
only `cp`'s nullness is meaningful to the decoder. -/
def encodeHeader (n : GaiNode) (ap cp nx : Nat) : List Nat :=
  encodeLe 4 n.flags ++ encodeLe 4 n.family ++ encodeLe 4 n.socktype ++
  encodeLe 4 n.protocol ++ encodeLe 4 n.addr.length ++ encodeLe 4 0 ++
  encodeLe 8 ap ++ encodeLe 8 cp ++ encodeLe 8 nx

/-- The byte stream `xgai_preexec_1` emits for one node. -/
def encodeNode (n : GaiNode) (ap cp nx : Nat) : List Nat :=
  encodeBlob (encodeHeader n ap cp nx) ++ encodeBlob n.addr ++
  (match n.canon with
   | some c => encodeBlob c
   | none => [])

/-- A node together with the incidental pointer words in its emitted header. -/
structure WireNode where
  node : GaiNode
  ap : Nat
  cp : Nat
  nx : Nat
deriving DecidableEq, Repr

def encodeWire (w : WireNode) : List Nat :=
  encodeNode w.node w.ap w.cp w.nx

/-- Nodes are concatenated back-to-back with no outer framing. -/
def encodeStream (l : List WireNode) : List Nat :=
  (l.map encodeWire).flatten

/-- Well-formed emitted node: the sockaddr length fits `socklen_t`, the
canonical-name pointer word fits a machine word and is non-null exactly when
a canonical name is present, and the name blob length fits `size_t`. -/
def wireWF (w : WireNode) : Prop :=
  w.node.addr.length < 256 ^ 4 ∧ w.cp < 256 ^ 8 ∧
  (match w.node.canon with
   | some c => w.cp ≠ 0 ∧ c.length < 256 ^ 8
   | none => w.cp = 0)

/-- One reconstructed list node as the decode loop builds it: the raw header
blob, the sockaddr blob (`ai_addr` after reassignment), and the canonical
name blob when the header's `ai_canonname` was non-null. -/
structure GaiDecoded where
  header : List Nat
  addr : List Nat
  canon : Option (List Nat)
deriving DecidableEq, Repr

/-- The decoded node corresponding to an emitted node. -/
def decodedWire (w : WireNode) : GaiDecoded :=
  ⟨encodeHeader w.node w.ap w.cp w.nx, w.node.addr, w.node.canon⟩

/-- The `while (data < data_end)` decode loop of `xgetaddrinfo_interruptible`
(net.c lines 462-479), with an explicit iteration budget `fuel` (`none`
means the budget ran out).  Each iteration: read the header blob and die
with `ECOMM "gai protocol error"` unless its size is `sizeof (struct
addrinfo)`; read the sockaddr blob and die likewise unless its size equals
the header's `ai_addrlen`; when the header's `ai_canonname` is non-null,
read the canonical-name blob; link the node and continue. -/
def gai_decode : Nat → List Nat → Option (Except DieErr (List GaiDecoded))
  | 0, _ => none
  | fuel + 1, rem =>
    if rem.isEmpty then some (.ok [])
    else
      match decode_blob rem with
      | .error e => some (.error e)
      | .ok (hdr, rem1) =>
        if hdr.length ≠ AI_SIZE then some (.error dieProto)
        else
          match decode_blob rem1 with
          | .error e => some (.error e)
          | .ok (addrB, rem2) =>
            if addrB.length ≠ hdrAddrlen hdr then some (.error dieProto)
            else if hdrCanon hdr ≠ 0 then
              match decode_blob rem2 with
              | .error e => some (.error e)
              | .ok (canonB, rem3) =>
                (gai_decode fuel rem3).map
                  (Except.map (⟨hdr, addrB, some canonB⟩ :: ·))
            else
              (gai_decode fuel rem2).map
                (Except.map (⟨hdr, addrB, none⟩ :: ·))

/-- The decode loop run with enough budget for any input (each iteration
consumes at least 8 bytes, see `C10_decode_loop_terminates`). -/
def gai_decode_all (rem : List Nat) : Option (Except DieErr (List GaiDecoded)) :=
  gai_decode (rem.length + 1) rem

/-- `k` is a node boundary of the emitted stream: the length of the bytes of
some prefix of the node list.  (Indices past `l.length` add nothing since
`take` saturates.) -/
def nodeBoundary (l : List WireNode) (k : Nat) : Prop :=
  ∃ i, i ≤ l.length ∧ k = (encodeStream (l.take i)).length

/-- Concrete sample node carrying a canonical name (`"hi"` with its NUL). -/
def exW1 : WireNode :=
  ⟨⟨0, 2, 1, 6, [10, 0, 0, 1], some [104, 105, 0]⟩, 0, 1, 0⟩

/-- Concrete sample node without a canonical name. -/
def exW2 : WireNode :=
  ⟨⟨0, 2, 1, 6, [10, 0, 0, 2], none⟩, 0, 0, 0⟩

/-- C4 counterexample: a helper killed by signal 9 produces the message
"getaddrinfo failed with signal 9", not the "resolution failed with signal
9" the claim states. -/
theorem C4_signal_message_counterexample :
    resolver_fail 9 "irrelevant" =
      some ⟨ENOENT, "getaddrinfo failed with signal 9"⟩ ∧
    "getaddrinfo failed with signal 9" ≠ "resolution failed with signal 9" := by
  exact ⟨rfl, by decide⟩

/-- C4 (amended): whenever the helper's wait status is not a success, the
parent fails with `ENOENT`; if the helper exited with a status code the
message is exactly the captured, cleaned standard-error text; if it was
killed by signal `N` the message is "getaddrinfo failed with signal N"; any
other termination shape yields the distinct fatal message "unknown status
from resolver process". -/
theorem C4_helper_failure (s : Nat) (msg : String)
    (h : child_status_success_p s = false) :
    (WIFEXITED s = true → resolver_fail s msg = some ⟨ENOENT, msg⟩) ∧
    (WIFSIGNALED s = true →
      resolver_fail s msg =
        some ⟨ENOENT, "getaddrinfo failed with signal " ++ toString (WTERMSIG s)⟩) ∧
    (WIFEXITED s = false → WIFSIGNALED s = false →
      resolver_fail s msg = some ⟨ENOENT, "unknown status from resolver process"⟩) := by
  refine ⟨fun h1 => ?_, fun h1 => ?_, fun h1 h2 => ?_⟩
  · simp [resolver_fail, h, h1]
  · have h2 : WIFEXITED s = false := by
      rw [WIFSIGNALED, Bool.and_eq_true] at h1
      simp only [bne_iff_ne, ne_eq] at h1
      rw [WIFEXITED]
      simp only [beq_eq_false_iff_ne, ne_eq]
      exact h1.1
    simp [resolver_fail, h, h1, h2]
  · simp [resolver_fail, h, h1, h2]

/-- C4 witness: a helper that exits with status 1 (raw wait status 256)
after writing "no such host" to standard error surfaces exactly that text. -/
theorem C4_helper_failure_witness :
    resolver_fail 256 "no such host" = some ⟨ENOENT, "no such host"⟩ :=
  (C4_helper_failure 256 "no such host" (by decide)).1 (by decide)

/-- C5 counterexample: in `xsocketpairnc`, when the second descriptor's
close-on-exec setup fails after `socketpair` succeeded, the fatal error
propagates with both descriptors (here 3 and 4) still open — the first
descriptor is not closed, because `xsocketpairnc` registers no cleanups. -/
theorem C5_xsocketpairnc_leak_counterexample :
    xsocketpairnc_model true true false 3 4 = .error ⟨[3, 4], []⟩ ∧
    (3 : Nat) ∈ ([3, 4] : List Nat) := by
  exact ⟨rfl, by decide⟩

/-- C5 (amended): `xsocketpair` commits a close-fd cleanup for each
descriptor before the close-on-exec setup, so on any failure after
`socketpair` succeeded the unwind closes both descriptors (no descriptor
stays open).  `xsocketpairnc`, by contrast, registers no cleanup slots: on a
failure of the second descriptor's setup both descriptors remain open and
ownership is the caller's. -/
theorem C5_socketpair_cleanup :
    (∀ (su0 su1 : Bool) (f0 f1 : Nat) (st : FdState),
      xsocketpair_model true su0 su1 f0 f1 = .error st → st.opened = []) ∧
    (∀ f0 f1 : Nat,
      xsocketpairnc_model true true false f0 f1 = .error ⟨[f0, f1], []⟩) := by
  constructor
  · intro su0 su1 f0 f1 st h
    cases su0 <;> cases su1 <;>
      simp [xsocketpair_model, unwind] at h <;> simp [← h]
  · intro f0 f1
    rfl

/-- C5 witness: with the second descriptor's setup failing, `xsocketpair`
propagates the failure with no descriptor left open. -/
theorem C5_socketpair_cleanup_witness :
    (⟨[], []⟩ : FdState).opened = [] ∧
    xsocketpairnc_model true true false 3 4 = .error ⟨[3, 4], []⟩ :=
  ⟨C5_socketpair_cleanup.1 true false 3 4 ⟨[], []⟩ rfl,
   C5_socketpair_cleanup.2 3 4⟩

/-- C6 counterexample: `xbind` is a socket syscall wrapper, and when the
underlying `bind` fails with `EINTR` it does not retry — it surfaces the
interruption as a fatal `die_errno("bind")` error carrying errno `EINTR`. -/
theorem C6_xbind_eintr_counterexample :
    xbind_model (some EINTR) = .error ⟨EINTR, "bind"⟩ := rfl

/-- C6 (amended): the wrappers around the blocking, interruption-prone calls
(`connect`, `accept`) retry transparently on `EINTR` and never surface it as
an error; `xaccept_nonblock` maps a would-block failure to the distinguished
no-pending-connection sentinel instead of retrying, while the blocking
`xaccept` treats would-block — like every other non-`EINTR` failure — as
fatal.  (The single-shot wrappers such as `xbind`/`xlisten` treat every
failure, `EINTR` included, as fatal; see the counterexample.) -/
theorem C6_eintr_retry :
    (∀ t, xconnect_model (.fail EINTR :: t) = xconnect_model t) ∧
    (∀ t e m, xconnect_model t = some (.error ⟨e, m⟩) → e ≠ EINTR) ∧
    (∀ (b : Bool) t,
      xaccept_internal_model b (.fail EINTR :: t) = xaccept_internal_model b t) ∧
    (∀ (b : Bool) t e m,
      xaccept_internal_model b t = some (.error ⟨e, m⟩) → e ≠ EINTR) ∧
    (∀ t, xaccept_nonblock_model (.fail EAGAIN :: t) = some (.ok none)) ∧
    (∀ t, xaccept_model (.fail EAGAIN :: t) = some (.error ⟨EAGAIN, "accept"⟩)) := by
  refine ⟨fun t => by simp [xconnect_model], ?_, fun b t => by simp [xaccept_internal_model], ?_, fun t => by simp [xaccept_nonblock_model, xaccept_internal_model, EINTR, EAGAIN], fun t => by simp [xaccept_model, xaccept_internal_model, EINTR, EAGAIN]⟩
  · intro t
    induction t with
    | nil => intro e m h; simp [xconnect_model] at h
    | cons a rest ih =>
      intro e m h
      match a with
      | .ok fd => simp [xconnect_model] at h
      | .fail e' =>
        by_cases he : e' = EINTR
        · rw [xconnect_model, if_pos he] at h
          exact ih e m h
        · rw [xconnect_model, if_neg he] at h
          simp only [Option.some.injEq, Except.error.injEq, DieErr.mk.injEq] at h
          exact fun hc => he (h.1.trans hc)
  · intro b t
    induction t with
    | nil => intro e m h; simp [xaccept_internal_model] at h
    | cons a rest ih =>
      intro e m h
      match a with
      | .ok fd => simp [xaccept_internal_model] at h
      | .fail e' =>
        by_cases he : e' = EINTR
        · rw [xaccept_internal_model, if_pos he] at h
          exact ih e m h
        · rw [xaccept_internal_model, if_neg he] at h
          by_cases hb : (b && (e' == EAGAIN || e' == EWOULDBLOCK)) = true
          · rw [if_pos hb] at h; simp at h
          · rw [if_neg hb] at h
            simp only [Option.some.injEq, Except.error.injEq, DieErr.mk.injEq] at h
            intro hc
            exact he (h.1 ▸ hc)

/-- C6 witness: a `connect` failing with `ECONNREFUSED` (111) is surfaced
fatally, and the surfaced errno is not `EINTR`; same for an `accept`
failing with `EBADF` (9). -/
theorem C6_eintr_retry_witness :
    xconnect_model [.fail 111] = some (.error ⟨111, "connect"⟩) ∧
    (111 : Nat) ≠ EINTR ∧
    xaccept_internal_model false [.fail 9] = some (.error ⟨9, "accept"⟩) ∧
    (9 : Nat) ≠ EINTR :=
  ⟨rfl, C6_eintr_retry.2.1 [.fail 111] 111 "connect" rfl, rfl,
   C6_eintr_retry.2.2.2.1 false [.fail 9] 9 "accept" rfl⟩

/-- C2: evaluation at the failing input.  `describe_addr` computes the
AF_UNIX path length as `a->size - offsetof(struct addr, addr_un.sun_path)`
(= size − 10), but every constructor stores in `a->size` the sockaddr length
measured from the union (`SUN_LEN`, = 2 + strlen).  Hence
`describe(make_addr_unix_filesystem("/tmp"))` dies with
`EINVAL "illegal AF_UNIX addr"` (size 6 < 10) instead of rendering "/tmp",
and for the 9-byte path "/aaaaaaab" it renders only "/" — the path minus its
last 8 bytes — instead of the path. -/
theorem C2_describe_addr_evaluated :
    make_addr_unix_filesystem [47, 116, 109, 112] =
      .ok ⟨6, AF_UNIX, [47, 116, 109, 112, 0]⟩ ∧
    describe_addr_unix ⟨6, AF_UNIX, [47, 116, 109, 112, 0]⟩ =
      .error ⟨EINVAL, "illegal AF_UNIX addr"⟩ ∧
    make_addr_unix_filesystem [47, 97, 97, 97, 97, 97, 97, 97, 98] =
      .ok ⟨11, AF_UNIX, [47, 97, 97, 97, 97, 97, 97, 97, 98, 0]⟩ ∧
    describe_addr_unix ⟨11, AF_UNIX, [47, 97, 97, 97, 97, 97, 97, 97, 98, 0]⟩ =
      .ok ⟨false, [47]⟩ ∧
    ([47] : List Nat) ≠ [47, 97, 97, 97, 97, 97, 97, 97, 98] := by
  refine ⟨rfl, rfl, rfl, rfl, by decide⟩

/-- C7: each constructor's length computation is overflow-checked with
`SATADD` and dies before any allocation: `make_addr_unix_filesystem` with
`EINVAL "socket name too long"` when `offsetof + (strlen + 1)` exceeds
`size_t` (paths are C strings, so `strlen ≤ SIZE_MAX − 1`),
`make_addr_unix_abstract` likewise on its `offsetof + 1 + nr` computation,
and with `ENOSYS` unconditionally on non-Linux platforms; `addrinfo2addr`
dies with `EINVAL "address too long"` whenever its `offsetof + ai_addrlen`
computation would overflow (with a 32-bit `socklen_t` this cannot arise, but
the guard is present and is modelled over the full `size_t` range). -/
theorem C7_overflow_discipline :
    (∀ p : List Nat, p.length ≤ SIZE_W - 2 →
      SIZE_W ≤ offsetof_addr_sun_path + (p.length + 1) →
      make_addr_unix_filesystem p = .error ⟨EINVAL, "socket name too long"⟩) ∧
    (∀ b : List Nat, SIZE_W ≤ offsetof_addr_sun_path + 1 + b.length →
      make_addr_unix_abstract true b = .error ⟨EINVAL, "socket name too long"⟩) ∧
    (∀ b : List Nat, make_addr_unix_abstract false b =
      .error ⟨ENOSYS, "this system does not support abstract AF_UNIX"⟩) ∧
    (∀ (n fam : Nat) (sa : List Nat), SIZE_W ≤ offsetof_addr_un + n →
      addrinfo2addr n fam sa = .error ⟨EINVAL, "address too long"⟩) := by
  have hw : SIZE_W = 18446744073709551616 := by norm_num [SIZE_W]
  refine ⟨fun p h1 h2 => ?_, fun b h => ?_, fun b => rfl, fun n fam sa h => ?_⟩
  · have hm : (p.length + 1) % SIZE_W = p.length + 1 :=
      Nat.mod_eq_of_lt (by rw [hw] at h1 ⊢; omega)
    have hs : SATADD offsetof_addr_sun_path ((p.length + 1) % SIZE_W) = none := by
      rw [SATADD, hm, if_neg]
      rw [hw, offsetof_addr_sun_path] at h2 ⊢
      omega
    simp [make_addr_unix_filesystem, hs]
  · have hs : SATADD (offsetof_addr_sun_path + 1) b.length = none := by
      rw [SATADD, if_neg]
      rw [hw, offsetof_addr_sun_path] at h ⊢
      omega
    simp [make_addr_unix_abstract, hs]
  · have hs : SATADD offsetof_addr_un n = none := by
      rw [SATADD, if_neg]
      rw [hw, offsetof_addr_un] at h ⊢
      omega
    simp [addrinfo2addr, hs]

/-- C7 witness: a path of `SIZE_MAX − 10` bytes and an abstract name of
`SIZE_MAX − 10` bytes overflow their length computations and are rejected;
the abstract constructor fails with `ENOSYS` off Linux; a `size_t`-sized
`ai_addrlen` of `SIZE_MAX − 7` overflows `addrinfo2addr`'s computation. -/
theorem C7_overflow_discipline_witness :
    make_addr_unix_filesystem (List.replicate (SIZE_W - 11) 97) =
      .error ⟨EINVAL, "socket name too long"⟩ ∧
    make_addr_unix_abstract true (List.replicate (SIZE_W - 11) 0) =
      .error ⟨EINVAL, "socket name too long"⟩ ∧
    make_addr_unix_abstract false [] =
      .error ⟨ENOSYS, "this system does not support abstract AF_UNIX"⟩ ∧
    addrinfo2addr (SIZE_W - 8) 1 [] = .error ⟨EINVAL, "address too long"⟩ :=
  ⟨C7_overflow_discipline.1 _
     (by simp only [List.length_replicate]; norm_num [SIZE_W])
     (by simp only [List.length_replicate]; norm_num [SIZE_W, offsetof_addr_sun_path]),
   C7_overflow_discipline.2.1 _
     (by simp only [List.length_replicate]; norm_num [SIZE_W, offsetof_addr_sun_path]),
   C7_overflow_discipline.2.2.1 [],
   C7_overflow_discipline.2.2.2 _ 1 []
     (by norm_num [SIZE_W, offsetof_addr_un])⟩

/-- Positions written by `writeBytes` are exactly `(pos + i) % cap` for
`i` below the payload length; any other cell is untouched. -/
theorem writeBytes_untouched (cap : Nat) (buf : List Nat) :
    ∀ (d : Nat → Nat) (pos q : Nat),
    (∀ i, i < buf.length → (pos + i) % cap ≠ q) →
    writeBytes d pos cap buf q = d q := by
  induction buf with
  | nil => intro d pos q _; rfl
  | cons b rest ih =>
    intro d pos q h
    rw [writeBytes]
    have step := ih (fun j => if j = pos % cap then b else d j) (pos + 1) q
      (fun i hi => by
        have hx := h (i + 1) (by simp only [List.length_cons]; omega)
        rwa [show pos + (i + 1) = pos + 1 + i by omega] at hx)
    rw [step]
    have h0 := h 0 (by simp)
    rw [Nat.add_zero] at h0
    exact if_neg (fun hq => h0 hq.symm)

/-- Reading back cell `(pos + i) % cap` after `writeBytes` yields byte `i` of
the payload, provided the payload does not wrap onto itself
(`buf.length ≤ cap`). -/
theorem writeBytes_read (cap : Nat) (buf : List Nat) :
    ∀ (d : Nat → Nat) (pos i : Nat) (hcap : buf.length ≤ cap)
      (hi : i < buf.length),
    writeBytes d pos cap buf ((pos + i) % cap) = buf.get ⟨i, hi⟩ := by
  induction buf with
  | nil => intro d pos i _ hi; exact absurd hi (by simp)
  | cons b rest ih =>
    intro d pos i hcap hi
    rw [writeBytes]
    match i with
    | 0 =>
      have huntouched : ∀ j, j < rest.length → (pos + 1 + j) % cap ≠ (pos + 0) % cap := by
        intro j hj heq
        rw [Nat.add_zero] at heq
        have h2 : pos + (1 + j) ≡ pos + 0 [MOD cap] := by
          rw [Nat.add_zero]
          rw [show pos + (1 + j) = pos + 1 + j by omega]
          exact heq
        have h3 := Nat.ModEq.add_left_cancel' pos h2
        have hlt : 1 + j < cap := by
          simp only [List.length_cons] at hcap
          omega
        rw [Nat.ModEq] at h3
        rw [Nat.mod_eq_of_lt hlt, Nat.zero_mod] at h3
        omega
      rw [writeBytes_untouched cap rest _ (pos + 1) _ huntouched]
      rw [Nat.add_zero]
      show (if pos % cap = pos % cap then b else d (pos % cap)) = b
      exact if_pos rfl
    | i' + 1 =>
      rw [show pos + (i' + 1) = pos + 1 + i' by omega]
      exact ih _ (pos + 1) i' (by simp only [List.length_cons] at hcap; omega)
        (by simp only [List.length_cons] at hi; omega)

/-- C9: copying `n ≤ capacity` bytes into an empty ring buffer and copying
`n` bytes back out yields exactly the original bytes in order, and noting
the removal returns the size to 0. -/
theorem C9_copy_roundtrip (rb : Ringbuf) (buf : List Nat)
    (hempty : rb.size = 0) (hlen : buf.length ≤ rb.cap) :
    ∃ rb₂ : Ringbuf,
      ringbuf_copy_in rb buf = .ok rb₂ ∧
      ringbuf_copy_out rb₂ buf.length = .ok buf ∧
      ringbuf_size (ringbuf_note_removed rb₂ buf.length) = 0 := by
  have hroom : ¬ buf.length > ringbuf_room rb := by
    rw [ringbuf_room, hempty]
    omega
  refine ⟨_, by rw [ringbuf_copy_in, if_neg hroom], ?_, ?_⟩
  · rw [ringbuf_copy_out]
    rw [if_neg (by simp only [hempty]; omega)]
    congr 1
    refine List.ext_getElem (by simp [readBytes]) ?_
    intro i h1 h2
    simp only [readBytes, List.getElem_map, List.getElem_range]
    rw [hempty, Nat.add_zero]
    have := writeBytes_read rb.cap buf rb.data rb.start i hlen
      (by simpa [readBytes] using h1)
    rw [this]
    simp [List.get_eq_getElem]
  · simp only [ringbuf_note_removed, ringbuf_size, hempty]
    omega

/-- C9 witness: payload `[7, 8, 9]` through an empty 4-byte ring buffer. -/
theorem C9_copy_roundtrip_witness :
    ∃ rb₂ : Ringbuf,
      ringbuf_copy_in ⟨4, 0, 0, fun _ => 0⟩ [7, 8, 9] = .ok rb₂ ∧
      ringbuf_copy_out rb₂ 3 = .ok [7, 8, 9] ∧
      ringbuf_size (ringbuf_note_removed rb₂ 3) = 0 :=
  C9_copy_roundtrip ⟨4, 0, 0, fun _ => 0⟩ [7, 8, 9] rfl (by decide)

/-- C8: under any interleaved write/read workload whose running total stays
within the capacity, every operation succeeds and after every prefix of the
workload `size + room = capacity` and `size ≤ capacity` (sizes are `Nat`, so
`0 ≤ size` throughout). -/
theorem C8_size_room_invariant (ops : List RbOp) :
    ∀ rb : Ringbuf, rb.size ≤ rb.cap →
    rbAdmissible rb.cap rb.size ops = true →
    ∀ k, ∃ rb₂, rbRun rb (ops.take k) = .ok rb₂ ∧ rb₂.cap = rb.cap ∧
      ringbuf_size rb₂ ≤ ringbuf_capacity rb₂ ∧
      ringbuf_size rb₂ + ringbuf_room rb₂ = ringbuf_capacity rb₂ := by
  induction ops with
  | nil =>
    intro rb h1 _ k
    exact ⟨rb, by simp [rbRun], rfl, h1, by
      simp only [ringbuf_size, ringbuf_room, ringbuf_capacity]; omega⟩
  | cons op rest ih =>
    intro rb h1 hadm k
    match k with
    | 0 =>
      exact ⟨rb, by simp [rbRun], rfl, h1, by
        simp only [ringbuf_size, ringbuf_room, ringbuf_capacity]; omega⟩
    | k + 1 =>
      rw [List.take_succ_cons]
      match op with
      | .wr buf =>
        rw [rbAdmissible, Bool.and_eq_true, decide_eq_true_eq] at hadm
        obtain ⟨hfit, hrest⟩ := hadm
        have hstep : rbStep rb (.wr buf) = .ok
            { rb with data := writeBytes rb.data (rb.start + rb.size) rb.cap buf
                      size := rb.size + buf.length } := by
          rw [rbStep, ringbuf_copy_in, if_neg (by rw [ringbuf_room]; omega)]
        rw [show rbRun rb (.wr buf :: rest.take k) =
            rbRun { rb with
                    data := writeBytes rb.data (rb.start + rb.size) rb.cap buf
                    size := rb.size + buf.length } (rest.take k) by
          rw [rbRun, hstep]; rfl]
        exact ih _ (by simpa using hfit) (by simpa using hrest) k
      | .rd n =>
        rw [rbAdmissible, Bool.and_eq_true, decide_eq_true_eq] at hadm
        obtain ⟨hfit, hrest⟩ := hadm
        have hstep : rbStep rb (.rd n) = .ok (ringbuf_note_removed rb n) := by
          rw [rbStep, ringbuf_copy_out, if_neg (by omega)]
          rfl
        rw [show rbRun rb (.rd n :: rest.take k) =
            rbRun (ringbuf_note_removed rb n) (rest.take k) by
          rw [rbRun, hstep]; rfl]
        exact ih _ (by simp only [ringbuf_note_removed]; omega)
          (by simpa [ringbuf_note_removed] using hrest) k

/-- C8 witness: capacity-4 buffer, workload write 3, read 2, write 3 —
admissible, and the invariant holds after the whole workload. -/
theorem C8_size_room_invariant_witness :
    ∃ rb₂, rbRun ⟨4, 0, 0, fun _ => 0⟩
        ([RbOp.wr [1, 2, 3], RbOp.rd 2, RbOp.wr [4, 5, 6]].take 3) = .ok rb₂ ∧
      rb₂.cap = 4 ∧ ringbuf_size rb₂ ≤ ringbuf_capacity rb₂ ∧
      ringbuf_size rb₂ + ringbuf_room rb₂ = ringbuf_capacity rb₂ :=
  C8_size_room_invariant [RbOp.wr [1, 2, 3], RbOp.rd 2, RbOp.wr [4, 5, 6]]
    ⟨4, 0, 0, fun _ => 0⟩ (by decide) (by decide) 3

theorem encodeLe_length : ∀ k n : Nat, (encodeLe k n).length = k := by
  intro k
  induction k with
  | zero => intro n; rfl
  | succ k ih => intro n; simp [encodeLe, ih]

theorem decodeLe_encodeLe : ∀ k n : Nat, n < 256 ^ k → decodeLe (encodeLe k n) = n := by
  intro k
  induction k with
  | zero =>
    intro n h
    simp only [Nat.pow_zero, Nat.lt_one_iff] at h
    simp [encodeLe, decodeLe, h]
  | succ k ih =>
    intro n h
    rw [encodeLe, decodeLe]
    rw [ih (n / 256) (by
      rw [Nat.div_lt_iff_lt_mul (by omega)]
      calc n < 256 ^ (k + 1) := h
        _ = 256 ^ k * 256 := by rw [Nat.pow_succ]
    )]
    omega

theorem encodeBlob_length (b : List Nat) : (encodeBlob b).length = 8 + b.length := by
  simp [encodeBlob, encodeLe_length]

/-- Decoding at the start of a well-formed blob yields the payload and the
following bytes, whatever they are. -/
theorem decode_blob_encodeBlob (b t : List Nat) (hb : b.length < 256 ^ 8) :
    decode_blob (encodeBlob b ++ t) = .ok (b, t) := by
  have hE : (encodeLe 8 b.length).length = 8 := encodeLe_length 8 _
  have hassoc : encodeBlob b ++ t = encodeLe 8 b.length ++ (b ++ t) := by
    rw [encodeBlob, List.append_assoc]
  simp only [decode_blob, hassoc, List.take_left' hE, List.drop_left' hE,
    decodeLe_encodeLe 8 b.length hb, List.length_append, hE]
  rw [if_neg (by omega)]
  rw [if_neg (by omega)]
  rw [List.take_left, List.drop_left]

/-- A successful `decode_blob` consumes the 8-byte prefix plus exactly the
announced payload: the sizes add back up to the input, and the payload's
size is the decoded prefix. -/
theorem decode_blob_lengths (rem blob rest : List Nat)
    (h : decode_blob rem = .ok (blob, rest)) :
    blob.length + (rest.length + 8) = rem.length ∧
    blob.length = decodeLe (rem.take 8) := by
  simp only [decode_blob] at h
  by_cases h1 : rem.length < 8
  · rw [if_pos h1] at h
    exact absurd h (by simp)
  · rw [if_neg h1] at h
    by_cases h2 : (rem.drop 8).length < decodeLe (rem.take 8)
    · rw [if_pos h2] at h
      exact absurd h (by simp)
    · rw [if_neg h2] at h
      have hb : blob = (rem.drop 8).take (decodeLe (rem.take 8)) := by
        cases h
        rfl
      have hr : rest = (rem.drop 8).drop (decodeLe (rem.take 8)) := by
        cases h
        rfl
      subst hb
      subst hr
      simp only [List.length_take, List.length_drop] at h2 ⊢
      omega

/-- Truncating a single blob strictly inside (losing part of its length
prefix or part of its payload) makes `decode_blob` die with
`ECOMM "truncated data"`. -/
theorem decode_blob_truncated (b : List Nat) (hb : b.length < 256 ^ 8)
    (k : Nat) (hk : k < (encodeBlob b).length) :
    decode_blob ((encodeBlob b).take k) = .error dieTruncated := by
  rw [encodeBlob_length] at hk
  have hE : (encodeLe 8 b.length).length = 8 := encodeLe_length 8 _
  by_cases h8 : k < 8
  · rw [decode_blob, if_pos]
    simp only [List.length_take, encodeBlob_length]
    omega
  · have htk : (encodeBlob b).take k =
        encodeLe 8 b.length ++ b.take (k - 8) := by
      have ht := @List.take_append _ (encodeLe 8 b.length) b (k - 8)
      rw [hE, show (8 : Nat) + (k - 8) = k by omega] at ht
      rw [encodeBlob]
      exact ht
    simp only [htk, decode_blob, List.take_left' hE, List.drop_left' hE,
      decodeLe_encodeLe 8 b.length hb, List.length_append, hE,
      List.length_take]
    rw [if_neg (by omega)]
    rw [if_pos (by omega)]

theorem isEmpty_false_of_pos {l : List Nat} (h : 0 < l.length) :
    l.isEmpty = false := by
  cases l with
  | nil => simp at h
  | cons a l => rfl

/-- Each loop iteration consumes at least one 8-byte length prefix, so a
budget exceeding the remaining byte count is never exhausted. -/
theorem gai_decode_ne_none :
    ∀ (n : Nat) (rem : List Nat) (fuel : Nat), rem.length ≤ n →
    rem.length < fuel → gai_decode fuel rem ≠ none := by
  intro n
  induction n with
  | zero =>
    intro rem fuel hn hf
    obtain ⟨f, rfl⟩ : ∃ f, fuel = f + 1 := ⟨fuel - 1, by omega⟩
    have hnil : rem = [] := List.eq_nil_of_length_eq_zero (by omega)
    subst hnil
    rw [gai_decode]
    simp
  | succ n ih =>
    intro rem fuel hn hf
    obtain ⟨f, rfl⟩ : ∃ f, fuel = f + 1 := ⟨fuel - 1, by omega⟩
    rw [gai_decode]
    by_cases hemp : rem.isEmpty = true
    · simp [hemp]
    · rw [if_neg hemp]
      have hpos : 0 < rem.length := by
        cases rem with
        | nil => exact absurd rfl hemp
        | cons a l => simp
      rcases hd : decode_blob rem with e | ⟨hdr, rem1⟩
      · simp
      · simp only []
        have l1 := (decode_blob_lengths _ _ _ hd).1
        by_cases hsz : hdr.length ≠ AI_SIZE
        · simp [hsz]
        · rw [if_neg hsz]
          rcases hd1 : decode_blob rem1 with e | ⟨addrB, rem2⟩
          · simp
          · simp only []
            have l2 := (decode_blob_lengths _ _ _ hd1).1
            by_cases hsz2 : addrB.length ≠ hdrAddrlen hdr
            · simp [hsz2]
            · rw [if_neg hsz2]
              by_cases hcn : hdrCanon hdr ≠ 0
              · rw [if_pos hcn]
                rcases hd2 : decode_blob rem2 with e | ⟨canonB, rem3⟩
                · simp
                · simp only []
                  have l3 := (decode_blob_lengths _ _ _ hd2).1
                  rw [Ne, Option.map_eq_none']
                  exact ih rem3 f (by omega) (by omega)
              · rw [if_neg hcn]
                rw [Ne, Option.map_eq_none']
                exact ih rem2 f (by omega) (by omega)

/-- The loop result does not depend on the budget once the budget exceeds
the remaining byte count. -/
theorem gai_decode_fuel_eq :
    ∀ (n : Nat) (rem : List Nat) (f g : Nat), rem.length ≤ n →
    rem.length < f → rem.length < g → gai_decode f rem = gai_decode g rem := by
  intro n
  induction n with
  | zero =>
    intro rem f g hn hf hg
    obtain ⟨f, rfl⟩ : ∃ x, f = x + 1 := ⟨f - 1, by omega⟩
    obtain ⟨g, rfl⟩ : ∃ x, g = x + 1 := ⟨g - 1, by omega⟩
    have hnil : rem = [] := List.eq_nil_of_length_eq_zero (by omega)
    subst hnil
    rfl
  | succ n ih =>
    intro rem f g hn hf hg
    obtain ⟨f, rfl⟩ : ∃ x, f = x + 1 := ⟨f - 1, by omega⟩
    obtain ⟨g, rfl⟩ : ∃ x, g = x + 1 := ⟨g - 1, by omega⟩
    rw [gai_decode, gai_decode]
    by_cases hemp : rem.isEmpty = true
    · rw [if_pos hemp, if_pos hemp]
    · rw [if_neg hemp, if_neg hemp]
      have hpos : 0 < rem.length := by
        cases rem with
        | nil => exact absurd rfl hemp
        | cons a l => simp
      rcases hd : decode_blob rem with e | ⟨hdr, rem1⟩
      · rfl
      · simp only []
        have l1 := (decode_blob_lengths _ _ _ hd).1
        by_cases hsz : hdr.length ≠ AI_SIZE
        · rw [if_pos hsz, if_pos hsz]
        · rw [if_neg hsz, if_neg hsz]
          rcases hd1 : decode_blob rem1 with e | ⟨addrB, rem2⟩
          · rfl
          · simp only []
            have l2 := (decode_blob_lengths _ _ _ hd1).1
            by_cases hsz2 : addrB.length ≠ hdrAddrlen hdr
            · rw [if_pos hsz2, if_pos hsz2]
            · rw [if_neg hsz2, if_neg hsz2]
              by_cases hcn : hdrCanon hdr ≠ 0
              · rw [if_pos hcn, if_pos hcn]
                rcases hd2 : decode_blob rem2 with e | ⟨canonB, rem3⟩
                · rfl
                · simp only []
                  have l3 := (decode_blob_lengths _ _ _ hd2).1
                  rw [ih rem3 f g (by omega) (by omega) (by omega)]
              · rw [if_neg hcn, if_neg hcn]
                rw [ih rem2 f g (by omega) (by omega) (by omega)]

theorem encodeHeader_length (n : GaiNode) (ap cp nx : Nat) :
    (encodeHeader n ap cp nx).length = 48 := by
  simp [encodeHeader, encodeLe_length]

theorem hdrAddrlen_encodeHeader (n : GaiNode) (ap cp nx : Nat)
    (h : n.addr.length < 256 ^ 4) :
    hdrAddrlen (encodeHeader n ap cp nx) = n.addr.length := by
  have hsplit : encodeHeader n ap cp nx =
      (encodeLe 4 n.flags ++ encodeLe 4 n.family ++ encodeLe 4 n.socktype ++
        encodeLe 4 n.protocol) ++
      (encodeLe 4 n.addr.length ++ (encodeLe 4 0 ++ (encodeLe 8 ap ++
        (encodeLe 8 cp ++ encodeLe 8 nx)))) := by
    simp [encodeHeader, List.append_assoc]
  rw [hdrAddrlen, hsplit]
  rw [List.drop_left' (by simp [encodeLe_length])]
  rw [List.take_left' (encodeLe_length 4 _)]
  exact decodeLe_encodeLe 4 _ h

theorem hdrCanon_encodeHeader (n : GaiNode) (ap cp nx : Nat)
    (h : cp < 256 ^ 8) :
    hdrCanon (encodeHeader n ap cp nx) = cp := by
  have hsplit : encodeHeader n ap cp nx =
      (encodeLe 4 n.flags ++ encodeLe 4 n.family ++ encodeLe 4 n.socktype ++
        encodeLe 4 n.protocol ++ encodeLe 4 n.addr.length ++ encodeLe 4 0 ++
        encodeLe 8 ap) ++
      (encodeLe 8 cp ++ encodeLe 8 nx) := by
    simp [encodeHeader, List.append_assoc]
  rw [hdrCanon, hsplit]
  rw [List.drop_left' (by simp [encodeLe_length])]
  rw [List.take_left' (encodeLe_length 8 _)]
  exact decodeLe_encodeLe 8 _ h

/-- Consuming one well-formed emitted node: the decode loop reads its two or
three blobs, passes both size checks, consumes the canonical-name blob
exactly when the emitted `ai_canonname` word is non-null, links the decoded
node, and continues on the rest of the stream. -/
theorem gai_decode_all_cons (w : WireNode) (t : List Nat) (hwf : wireWF w) :
    gai_decode_all (encodeWire w ++ t) =
      (gai_decode_all t).map (Except.map (decodedWire w :: ·)) := by
  obtain ⟨hlen, hcp, hcanon⟩ := hwf
  have hhdr48 : (encodeHeader w.node w.ap w.cp w.nx).length = 48 :=
    encodeHeader_length _ _ _ _
  have hb1 : ∀ r : List Nat,
      decode_blob (encodeBlob (encodeHeader w.node w.ap w.cp w.nx) ++ r) =
        .ok (encodeHeader w.node w.ap w.cp w.nx, r) :=
    fun r => decode_blob_encodeBlob _ r (by rw [hhdr48]; norm_num)
  have hb2 : ∀ r : List Nat,
      decode_blob (encodeBlob w.node.addr ++ r) = .ok (w.node.addr, r) :=
    fun r => decode_blob_encodeBlob _ r (by
      calc w.node.addr.length < 256 ^ 4 := hlen
        _ ≤ 256 ^ 8 := by norm_num)
  cases hc : w.node.canon with
  | none =>
    rw [hc] at hcanon
    have e1 : encodeWire w ++ t =
        encodeBlob (encodeHeader w.node w.ap w.cp w.nx) ++
          (encodeBlob w.node.addr ++ t) := by
      simp [encodeWire, encodeNode, hc, List.append_assoc]
    have hlenstream : (encodeWire w ++ t).length = 64 + w.node.addr.length + t.length := by
      rw [e1]
      simp [encodeBlob_length, hhdr48, List.length_append]
      omega
    rw [gai_decode_all, hlenstream]
    rw [e1, gai_decode]
    rw [if_neg (by
      rw [← e1]
      rw [isEmpty_false_of_pos (by rw [hlenstream]; omega)]
      simp)]
    rw [hb1]
    simp only []
    rw [if_neg (by rw [hhdr48]; simp [AI_SIZE])]
    rw [hb2]
    simp only []
    rw [if_neg (by
      rw [hdrAddrlen_encodeHeader _ _ _ _ hlen]
      simp)]
    rw [hdrCanon_encodeHeader _ _ _ _ hcp]
    rw [if_neg (by simp [hcanon])]
    rw [gai_decode_fuel_eq t.length t _ (t.length + 1) le_rfl (by omega) (by omega)]
    rw [gai_decode_all]
    congr 1
    funext x
    simp [decodedWire, hc]
  | some c =>
    rw [hc] at hcanon
    obtain ⟨hcp0, hclen⟩ := hcanon
    have hb3 : ∀ r : List Nat,
        decode_blob (encodeBlob c ++ r) = .ok (c, r) :=
      fun r => decode_blob_encodeBlob _ r hclen
    have e1 : encodeWire w ++ t =
        encodeBlob (encodeHeader w.node w.ap w.cp w.nx) ++
          (encodeBlob w.node.addr ++ (encodeBlob c ++ t)) := by
      simp [encodeWire, encodeNode, hc, List.append_assoc]
    have hlenstream : (encodeWire w ++ t).length =
        72 + w.node.addr.length + c.length + t.length := by
      rw [e1]
      simp [encodeBlob_length, hhdr48, List.length_append]
      omega
    rw [gai_decode_all, hlenstream]
    rw [e1, gai_decode]
    rw [if_neg (by
      rw [← e1]
      rw [isEmpty_false_of_pos (by rw [hlenstream]; omega)]
      simp)]
    rw [hb1]
    simp only []
    rw [if_neg (by rw [hhdr48]; simp [AI_SIZE])]
    rw [hb2]
    simp only []
    rw [if_neg (by
      rw [hdrAddrlen_encodeHeader _ _ _ _ hlen]
      simp)]
    rw [hdrCanon_encodeHeader _ _ _ _ hcp]
    rw [if_pos hcp0]
    rw [hb3]
    simp only []
    rw [gai_decode_fuel_eq t.length t _ (t.length + 1) le_rfl (by omega) (by omega)]
    rw [gai_decode_all]
    congr 1
    funext x
    simp [decodedWire, hc]

/-- Decoding a full well-formed emitted stream reconstructs every node in
emission order. -/
theorem gai_decode_all_encodeStream (l : List WireNode)
    (hwf : ∀ w ∈ l, wireWF w) :
    gai_decode_all (encodeStream l) = some (.ok (l.map decodedWire)) := by
  induction l with
  | nil => rfl
  | cons w rest ih =>
    have e : encodeStream (w :: rest) = encodeWire w ++ encodeStream rest := by
      simp [encodeStream]
    rw [e, gai_decode_all_cons w _ (hwf w (by simp))]
    rw [ih (fun x hx => hwf x (by simp [hx]))]
    rfl

/-- C3: a well-formed stream of two nodes — the first carrying a canonical
name, the second not — decodes to exactly two nodes in emission order, and
the canonical name is present on exactly the node that encoded one (the
third blob is consumed if and only if the emitted header's canonical-name
word is non-null, which well-formedness ties to the presence of a name). -/
theorem C3_two_node_roundtrip (w₁ w₂ : WireNode) (h₁ : wireWF w₁)
    (h₂ : wireWF w₂) (c : List Nat) (hc₁ : w₁.node.canon = some c)
    (hc₂ : w₂.node.canon = none) :
    gai_decode_all (encodeWire w₁ ++ encodeWire w₂) =
      some (.ok [decodedWire w₁, decodedWire w₂]) ∧
    (decodedWire w₁).canon = some c ∧ (decodedWire w₂).canon = none := by
  refine ⟨?_, by simp [decodedWire, hc₁], by simp [decodedWire, hc₂]⟩
  have hs : encodeStream [w₁, w₂] = encodeWire w₁ ++ encodeWire w₂ := by
    simp [encodeStream]
  have hd := gai_decode_all_encodeStream [w₁, w₂] (by
    intro w hw
    simp only [List.mem_cons, List.not_mem_nil, or_false] at hw
    rcases hw with h | h <;> subst h
    · exact h₁
    · exact h₂)
  rw [hs] at hd
  simpa using hd

/-- C3 witness: concrete two-node stream, first node with canonical name
"hi", second without. -/
theorem C3_two_node_roundtrip_witness :
    gai_decode_all (encodeWire exW1 ++ encodeWire exW2) =
      some (.ok [decodedWire exW1, decodedWire exW2]) ∧
    (decodedWire exW1).canon = some [104, 105, 0] ∧
    (decodedWire exW2).canon = none :=
  C3_two_node_roundtrip exW1 exW2
    ⟨by norm_num [exW1], by norm_num [exW1], by norm_num [exW1]⟩
    ⟨by norm_num [exW2], by norm_num [exW2], by norm_num [exW2]⟩
    [104, 105, 0] rfl rfl

/-- C10: a successful `decode_blob` advances the cursor by at least the
8-byte length prefix — the remaining distance shrinks by at least 8 — and
therefore the `while (data < data_end)` loop finishes within any iteration
budget exceeding the number of remaining bytes: the decode of a finite
buffer terminates, by dying or by returning the list. -/
theorem C10_decode_loop_terminates :
    (∀ rem blob rest : List Nat, decode_blob rem = .ok (blob, rest) →
      rest.length + 8 ≤ rem.length) ∧
    (∀ (fuel : Nat) (rem : List Nat), rem.length < fuel →
      gai_decode fuel rem ≠ none) := by
  constructor
  · intro rem blob rest h
    have := (decode_blob_lengths rem blob rest h).1
    omega
  · intro fuel rem h
    exact gai_decode_ne_none rem.length rem fuel le_rfl h

/-- C10 witness: the empty blob `[0;8]` is decoded with the cursor advanced
by exactly 8, and a 9-byte input decodes fully within a 10-iteration
budget. -/
theorem C10_decode_loop_terminates_witness :
    ([] : List Nat).length + 8 ≤ (encodeBlob []).length ∧
    gai_decode 10 (encodeBlob [1]) ≠ none :=
  ⟨C10_decode_loop_terminates.1 (encodeBlob []) [] [] rfl,
   C10_decode_loop_terminates.2 10 (encodeBlob [1]) (by decide)⟩

theorem encodeWire_length (w : WireNode) :
    (encodeWire w).length = 64 + w.node.addr.length +
      (match w.node.canon with
       | some c => 8 + c.length
       | none => 0) := by
  cases hc : w.node.canon with
  | none =>
    simp [encodeWire, encodeNode, hc, encodeBlob_length, encodeHeader_length,
      List.length_append]
    omega
  | some c =>
    simp [encodeWire, encodeNode, hc, encodeBlob_length, encodeHeader_length,
      List.length_append]
    omega

/-- A stream whose very first blob is already broken makes the loop die. -/
theorem gai_decode_all_err1 (x : List Nat) (hne : 0 < x.length)
    (h : decode_blob x = .error dieTruncated) :
    gai_decode_all x = some (.error dieTruncated) := by
  rw [gai_decode_all, gai_decode]
  rw [if_neg (by rw [isEmpty_false_of_pos hne]; simp)]
  simp only [h]

/-- A stream that breaks right after a complete 48-byte header blob makes
the loop die inside the same iteration. -/
theorem gai_decode_all_err2 (h48 y : List Nat) (hl : h48.length = 48)
    (hy : decode_blob y = .error dieTruncated) :
    gai_decode_all (encodeBlob h48 ++ y) = some (.error dieTruncated) := by
  rw [gai_decode_all, gai_decode]
  rw [if_neg (by
    rw [isEmpty_false_of_pos (by simp [encodeBlob_length])]
    simp)]
  rw [decode_blob_encodeBlob h48 y (by rw [hl]; norm_num)]
  simp only []
  rw [if_neg (by rw [hl]; simp [AI_SIZE])]
  simp only [hy]

/-- A stream that breaks after a complete header blob and a complete,
size-matching sockaddr blob, with the header demanding a canonical name,
makes the loop die inside the same iteration. -/
theorem gai_decode_all_err3 (h48 addrB z : List Nat) (hl : h48.length = 48)
    (ha : addrB.length = hdrAddrlen h48) (halen : addrB.length < 256 ^ 8)
    (hcn : hdrCanon h48 ≠ 0) (hz : decode_blob z = .error dieTruncated) :
    gai_decode_all (encodeBlob h48 ++ (encodeBlob addrB ++ z)) =
      some (.error dieTruncated) := by
  rw [gai_decode_all, gai_decode]
  rw [if_neg (by
    rw [isEmpty_false_of_pos (by simp [encodeBlob_length])]
    simp)]
  rw [decode_blob_encodeBlob h48 _ (by rw [hl]; norm_num)]
  simp only []
  rw [if_neg (by rw [hl]; simp [AI_SIZE])]
  rw [decode_blob_encodeBlob addrB z halen]
  simp only []
  rw [if_neg (by rw [ha]; simp)]
  rw [if_pos hcn]
  simp only [hz]

/-- Truncating one emitted node strictly inside — at any byte boundary after
its start and before its end — makes the decode loop die with
`ECOMM "truncated data"`. -/
theorem gai_decode_node_truncated (w : WireNode) (hwf : wireWF w) (k : Nat)
    (hk0 : 0 < k) (hkl : k < (encodeWire w).length) :
    gai_decode_all ((encodeWire w).take k) = some (.error dieTruncated) := by
  obtain ⟨hlen, hcp, hcanon⟩ := hwf
  have hhdr48 : (encodeHeader w.node w.ap w.cp w.nx).length = 48 :=
    encodeHeader_length _ _ _ _
  have hE1 : (encodeBlob (encodeHeader w.node w.ap w.cp w.nx)).length = 56 := by
    rw [encodeBlob_length, hhdr48]
  have hE2 : (encodeBlob w.node.addr).length = 8 + w.node.addr.length :=
    encodeBlob_length _
  have hwl := encodeWire_length w
  have haddr8 : w.node.addr.length < 256 ^ 8 := by
    calc w.node.addr.length < 256 ^ 4 := hlen
      _ ≤ 256 ^ 8 := by norm_num
  by_cases hr1 : k < 56
  · -- inside the header blob
    cases hc : w.node.canon with
    | none =>
      have he : encodeWire w =
          encodeBlob (encodeHeader w.node w.ap w.cp w.nx) ++
            encodeBlob w.node.addr := by
        simp [encodeWire, encodeNode, hc]
      rw [he, List.take_append_of_le_length (by omega)]
      refine gai_decode_all_err1 _ (by simp [List.length_take]; omega) ?_
      exact decode_blob_truncated _ (by rw [hhdr48]; norm_num) k (by omega)
    | some c =>
      have he : encodeWire w =
          encodeBlob (encodeHeader w.node w.ap w.cp w.nx) ++
            (encodeBlob w.node.addr ++ encodeBlob c) := by
        simp [encodeWire, encodeNode, hc, List.append_assoc]
      rw [he, List.take_append_of_le_length (by omega)]
      refine gai_decode_all_err1 _ (by simp [List.length_take]; omega) ?_
      exact decode_blob_truncated _ (by rw [hhdr48]; norm_num) k (by omega)
  · -- the header blob is complete; work in the rest of the node
    cases hc : w.node.canon with
    | none =>
      rw [hc] at hwl
      simp only [] at hwl
      have he : encodeWire w =
          encodeBlob (encodeHeader w.node w.ap w.cp w.nx) ++
            encodeBlob w.node.addr := by
        simp [encodeWire, encodeNode, hc]
      have htk : (encodeWire w).take k =
          encodeBlob (encodeHeader w.node w.ap w.cp w.nx) ++
            (encodeBlob w.node.addr).take (k - 56) := by
        have ht := @List.take_append _
          (encodeBlob (encodeHeader w.node w.ap w.cp w.nx))
          (encodeBlob w.node.addr) (k - 56)
        rw [hE1, show (56 : Nat) + (k - 56) = k by omega] at ht
        rw [he]
        exact ht
      rw [htk]
      by_cases hk56 : k = 56
      · refine gai_decode_all_err2 _ _ hhdr48 ?_
        rw [hk56]
        simp only [Nat.sub_self, List.take_zero]
        rfl
      · exact gai_decode_all_err2 _ _ hhdr48
          (decode_blob_truncated _ haddr8 (k - 56) (by omega))
    | some c =>
      rw [hc] at hwl
      simp only [] at hwl
      obtain ⟨hcp0, hclen⟩ : w.cp ≠ 0 ∧ c.length < 256 ^ 8 := by
        rw [hc] at hcanon
        exact hcanon
      have hcn : hdrCanon (encodeHeader w.node w.ap w.cp w.nx) ≠ 0 := by
        rw [hdrCanon_encodeHeader _ _ _ _ hcp]
        exact hcp0
      have he : encodeWire w =
          encodeBlob (encodeHeader w.node w.ap w.cp w.nx) ++
            (encodeBlob w.node.addr ++ encodeBlob c) := by
        simp [encodeWire, encodeNode, hc, List.append_assoc]
      by_cases hr2 : k < 56 + (8 + w.node.addr.length)
      · -- inside (or at the start of) the sockaddr blob
        have htk : (encodeWire w).take k =
            encodeBlob (encodeHeader w.node w.ap w.cp w.nx) ++
              (encodeBlob w.node.addr ++ encodeBlob c).take (k - 56) := by
          have ht := @List.take_append _
            (encodeBlob (encodeHeader w.node w.ap w.cp w.nx))
            (encodeBlob w.node.addr ++ encodeBlob c) (k - 56)
          rw [hE1, show (56 : Nat) + (k - 56) = k by omega] at ht
          rw [he]
          exact ht
        rw [htk, List.take_append_of_le_length (by omega)]
        by_cases hk56 : k = 56
        · refine gai_decode_all_err2 _ _ hhdr48 ?_
          rw [hk56]
          simp only [Nat.sub_self, List.take_zero]
          rfl
        · exact gai_decode_all_err2 _ _ hhdr48
            (decode_blob_truncated _ haddr8 (k - 56) (by omega))
      · -- the sockaddr blob is complete too; inside the canonical-name blob
        have htk : (encodeWire w).take k =
            encodeBlob (encodeHeader w.node w.ap w.cp w.nx) ++
              (encodeBlob w.node.addr ++
                (encodeBlob c).take (k - 56 - (8 + w.node.addr.length))) := by
          have ht2 := @List.take_append _ (encodeBlob w.node.addr)
            (encodeBlob c) (k - 56 - (8 + w.node.addr.length))
          rw [hE2, show 8 + w.node.addr.length +
              (k - 56 - (8 + w.node.addr.length)) = k - 56 by omega] at ht2
          have ht := @List.take_append _
            (encodeBlob (encodeHeader w.node w.ap w.cp w.nx))
            (encodeBlob w.node.addr ++ encodeBlob c) (k - 56)
          rw [hE1, show (56 : Nat) + (k - 56) = k by omega] at ht
          rw [he, ht, ht2]
        rw [htk]
        by_cases hkend : k = 56 + (8 + w.node.addr.length)
        · refine gai_decode_all_err3 _ _ _ hhdr48
            (hdrAddrlen_encodeHeader _ _ _ _ hlen).symm haddr8 hcn ?_
          rw [hkend]
          simp only [show 56 + (8 + w.node.addr.length) - 56 -
            (8 + w.node.addr.length) = 0 by omega, List.take_zero]
          rfl
        · exact gai_decode_all_err3 _ _ _ hhdr48
            (hdrAddrlen_encodeHeader _ _ _ _ hlen).symm haddr8 hcn
            (decode_blob_truncated _ hclen _ (by rw [encodeBlob_length]; omega))

theorem encodeStream_append (a b : List WireNode) :
    encodeStream (a ++ b) = encodeStream a ++ encodeStream b := by
  simp [encodeStream]

/-- Truncating anywhere that is not a node boundary dies with
`ECOMM "truncated data"`. -/
theorem gai_decode_truncated_not_boundary :
    ∀ l : List WireNode, (∀ w ∈ l, wireWF w) → ∀ k,
    k ≤ (encodeStream l).length → ¬ nodeBoundary l k →
    gai_decode_all ((encodeStream l).take k) = some (.error dieTruncated) := by
  intro l
  induction l with
  | nil =>
    intro _ k hk hnb
    exact absurd ⟨0, by simp, by simpa [encodeStream] using hk⟩ hnb
  | cons w rest ih =>
    intro hwf k hk hnb
    have hwfw := hwf w (by simp)
    have hwfr : ∀ x ∈ rest, wireWF x := fun x hx => hwf x (by simp [hx])
    have hs : encodeStream (w :: rest) = encodeWire w ++ encodeStream rest := by
      simp [encodeStream]
    by_cases hk0 : k = 0
    · exfalso
      refine hnb ⟨0, by simp, ?_⟩
      simp [encodeStream, hk0]
    · by_cases hklt : k < (encodeWire w).length
      · rw [hs, List.take_append_of_le_length (by omega)]
        exact gai_decode_node_truncated w hwfw k (by omega) hklt
      · have htk : (encodeStream (w :: rest)).take k =
            encodeWire w ++ (encodeStream rest).take (k - (encodeWire w).length) := by
          have ht := @List.take_append _ (encodeWire w) (encodeStream rest)
            (k - (encodeWire w).length)
          rw [show (encodeWire w).length + (k - (encodeWire w).length) = k by
            omega] at ht
          rw [hs]
          exact ht
        rw [htk, gai_decode_all_cons w _ hwfw]
        have hm : k - (encodeWire w).length ≤ (encodeStream rest).length := by
          rw [hs, List.length_append] at hk
          omega
        have hnb2 : ¬ nodeBoundary rest (k - (encodeWire w).length) := by
          rintro ⟨i, hi, him⟩
          refine hnb ⟨i + 1, by simp only [List.length_cons]; omega, ?_⟩
          have hsi : encodeStream ((w :: rest).take (i + 1)) =
              encodeWire w ++ encodeStream (rest.take i) := by
            simp only [List.take_succ_cons]
            simp [encodeStream]
          rw [hsi, List.length_append]
          omega
        rw [ih hwfr _ hm hnb2]
        rfl

/-- C1 counterexample: the claim says every truncation at a byte boundary
before the stream's final blob raises a fatal failure.  Cutting the concrete
two-node stream at byte 79 — the boundary between the two nodes, strictly
before the final blob — instead returns a silently shortened one-node list
with no error. -/
theorem C1_node_boundary_counterexample :
    79 < (encodeStream [exW1, exW2]).length ∧
    gai_decode_all ((encodeStream [exW1, exW2]).take 79) =
      some (.ok [decodedWire exW1]) := by
  have hw1 : wireWF exW1 := ⟨by norm_num [exW1], by norm_num [exW1],
    by norm_num [exW1]⟩
  have h79 : (encodeWire exW1).length = 79 := by decide
  have hs : encodeStream [exW1, exW2] = encodeWire exW1 ++ encodeWire exW2 := by
    simp [encodeStream]
  constructor
  · rw [hs, List.length_append, h79]
    have h68 : (encodeWire exW2).length = 68 := by decide
    omega
  · rw [hs, List.take_left' h79]
    have h1 : encodeStream [exW1] = encodeWire exW1 := by
      simp [encodeStream]
    rw [← h1]
    rw [gai_decode_all_encodeStream [exW1] (by
      intro x hx
      simp only [List.mem_cons, List.not_mem_nil, or_false] at hx
      rw [hx]
      exact hw1)]
    rfl

/-- C1 (amended): truncating a well-formed emitted stream at a byte boundary
strictly inside a node raises the fatal `ECOMM "truncated data"` failure; but
truncating exactly at a node boundary (the empty prefix included) is
indistinguishable from end of stream — the loop returns the list of the
fully present nodes silently, with no error. -/
theorem C1_truncation_amended (l : List WireNode) (hwf : ∀ w ∈ l, wireWF w) :
    (∀ k, k ≤ (encodeStream l).length → ¬ nodeBoundary l k →
      gai_decode_all ((encodeStream l).take k) = some (.error dieTruncated)) ∧
    (∀ i, (encodeStream l).take ((encodeStream (l.take i)).length) =
        encodeStream (l.take i) ∧
      gai_decode_all (encodeStream (l.take i)) =
        some (.ok ((l.take i).map decodedWire))) := by
  constructor
  · exact gai_decode_truncated_not_boundary l hwf
  · intro i
    constructor
    · have hsplit : encodeStream l =
          encodeStream (l.take i) ++ encodeStream (l.drop i) := by
        conv_lhs => rw [← List.take_append_drop i l]
        rw [encodeStream_append]
      rw [hsplit, List.take_left]
    · exact gai_decode_all_encodeStream _
        (fun w hw => hwf w (List.take_subset i l hw))

/-- C1 witness: on the concrete two-node stream, cutting at byte 5 (inside
the first node's header-blob length prefix) dies with the truncation error,
while cutting at byte 79 (the node boundary) yields the one-node prefix
list. -/
theorem C1_truncation_amended_witness :
    gai_decode_all ((encodeStream [exW1, exW2]).take 5) =
      some (.error dieTruncated) ∧
    (encodeStream [exW1, exW2]).take
        ((encodeStream ([exW1, exW2].take 1)).length) =
      encodeStream ([exW1, exW2].take 1) ∧
    gai_decode_all (encodeStream ([exW1, exW2].take 1)) =
      some (.ok (([exW1, exW2].take 1).map decodedWire)) := by
  have hw1 : wireWF exW1 := ⟨by norm_num [exW1], by norm_num [exW1],
    by norm_num [exW1]⟩
  have hw2 : wireWF exW2 := ⟨by norm_num [exW2], by norm_num [exW2],
    by norm_num [exW2]⟩
  have hwf : ∀ w ∈ [exW1, exW2], wireWF w := by
    intro x hx
    simp only [List.mem_cons, List.not_mem_nil, or_false] at hx
    rcases hx with rfl | rfl
    · exact hw1
    · exact hw2
  refine ⟨(C1_truncation_amended [exW1, exW2] hwf).1 5 (by decide) ?_,
    ((C1_truncation_amended [exW1, exW2] hwf).2 1).1,
    ((C1_truncation_amended [exW1, exW2] hwf).2 1).2⟩
  rintro ⟨i, hi, h5⟩
  simp only [List.length_cons, List.length_nil] at hi
  have hcase : i = 0 ∨ i = 1 ∨ i = 2 := by omega
  rcases hcase with rfl | rfl | rfl
  · revert h5
    decide
  · revert h5
    decide
  · revert h5
    decide
